import Mathlib

/-
Verification of the autoregressive training core of the
graphneuralpdesolver repository: the jump/unroll rollout operations, the
curriculum schedule of the training driver, the lead-time computation,
the normalization helpers, the epoch loss accumulation, the batch
divisibility guard and the statistics guard. Machine arithmetic on
trajectory values is embedded as exact rational arithmetic; index and
epoch arithmetic is embedded as natural-number arithmetic mirroring the
Python integer operations.
-/

/-! ## Autoregressive rollout (jump and unroll) -/

/-- Modelled from the spec: the module graphneuralpdesolver/autoregressive.py
with the class AutoregressivePredictor is not among the provided sources.
Following the spec, unroll applies the operator num_steps times, each time
feeding the previous physical-space prediction back in as the next input,
and produces the full predicted trajectory plus the final input window. -/
def unroll {P S A : Type} (op : P → S → A → A) (params : P) (specs : S) :
    A → Nat → List A × A
  | u_inp, 0 => ([], u_inp)
  | u_inp, n + 1 =>
    let u_pred := op params specs u_inp
    let rest := unroll op params specs u_pred n
    (u_pred :: rest.1, rest.2)

/-- Modelled from the spec: jump uses stepping logic identical to unroll but
discards the output history and returns only the final input window. -/
def jump {P S A : Type} (op : P → S → A → A) (params : P) (specs : S) :
    A → Nat → A
  | u_inp, 0 => u_inp
  | u_inp, n + 1 => jump op params specs (op params specs u_inp) n

lemma getLast?_cons_of_getLast? {A : Type} (a : A) (l : List A) (r : A)
    (h : l.getLast? = some r) : (a :: l).getLast? = some r := by
  cases l with
  | nil => simp at h
  | cons b m => rw [List.getLast?_cons_cons]; exact h

lemma unroll_succ_getLast {P S A : Type} (op : P → S → A → A) (p : P) (s : S)
    (n : Nat) (u : A) :
    (unroll op p s u (n + 1)).1.getLast? = some (jump op p s u (n + 1)) := by
  induction n generalizing u with
  | zero => simp [unroll, jump]
  | succ m ih =>
    simp only [unroll, jump]
    exact getLast?_cons_of_getLast? _ _ _ (ih _)

/-- C1: for every operator, parameter set, spec vector, input window, and step
count N at least 1, the output of jump on those inputs equals the final
element of the trajectory returned by unroll on the same inputs. -/
theorem C1_jump_eq_unroll_final {P S A : Type} (op : P → S → A → A)
    (params : P) (specs : S) (u_inp : A) (N : Nat) (hN : 1 ≤ N) :
    (unroll op params specs u_inp N).1.getLast? =
      some (jump op params specs u_inp N) := by
  obtain ⟨m, rfl⟩ : ∃ m, N = m + 1 := ⟨N - 1, by omega⟩
  exact unroll_succ_getLast op params specs m u_inp

/-- C1 witness: the theorem applied at a concrete operator and input. -/
theorem C1_jump_eq_unroll_final_witness :
    1 ≤ 2 ∧ (unroll (fun (p s a : Nat) => p + s + a) 1 2 1 2).1.getLast? =
      some (jump (fun (p s a : Nat) => p + s + a) 1 2 1 2) :=
  ⟨by decide, C1_jump_eq_unroll_final (fun (p s a : Nat) => p + s + a) 1 2 1 2 (by decide)⟩

/-! ## Randomized gradient-truncation split -/

/-- The split computed in train.py in the function with the local name
for loss and gradients: grads_steps is unroll_steps minus noise_steps,
where noise_steps is drawn from the integers 0 to unroll_steps. -/
def grads_steps (unroll_steps noise_steps : Nat) : Nat :=
  unroll_steps - noise_steps

/-- C3: for every configured unroll depth U and every draw of noise_steps in
the support of the sampler, which is the integer interval from 0 to U, the
identity noise_steps plus grads_steps equals U holds exactly. -/
theorem C3_split_invariant (U noise_steps : Nat) (h : noise_steps < U + 1) :
    noise_steps + grads_steps U noise_steps = U := by
  unfold grads_steps
  omega

/-- C3 witness: the theorem applied at a concrete draw. -/
theorem C3_split_invariant_witness :
    2 < 3 + 1 ∧ 2 + grads_steps 3 2 = 3 :=
  ⟨by decide, C3_split_invariant 3 2 (by decide)⟩

/-! ## Lead times of the training loop -/

/-- The unroll offset set in train.py: unroll_steps times direct_steps. -/
def unroll_offset (unroll_steps direct_steps : Nat) : Nat :=
  unroll_steps * direct_steps

/-- The number of effective time steps set in train.py: the trajectory
length minus one, divided by jump_steps. -/
def num_times (len_traj jump_steps : Nat) : Nat :=
  (len_traj - 1) / jump_steps

/-- The permissible lead times set in train.py: the integer range from the
unroll offset up to but excluding num_times minus direct_steps. -/
def lead_times (len_traj jump_steps direct_steps unroll_steps : Nat) : List Nat :=
  List.range' (unroll_offset unroll_steps direct_steps)
    (num_times len_traj jump_steps - direct_steps -
      unroll_offset unroll_steps direct_steps)

/-! ## Curriculum schedule of the training driver -/

/-- The number of epochs reserved for the direct phase, as set in the main
driver: the floor of epochs divided by one plus a fifth of unroll_steps,
written in exact integer arithmetic as 5 epochs over 5 plus unroll_steps. -/
def epochs_u00 (epochs unroll_steps : Nat) : Nat :=
  5 * epochs / (5 + unroll_steps)

/-- Epochs of each non-final unroll sub-phase, as set in the main driver. -/
def epochs_uxx (epochs unroll_steps : Nat) : Nat :=
  (epochs - epochs_u00 epochs unroll_steps) / unroll_steps

/-- Epochs of the final unroll sub-phase: the even share plus the remainder. -/
def epochs_uff (epochs unroll_steps : Nat) : Nat :=
  epochs_uxx epochs unroll_steps +
    (epochs - epochs_u00 epochs unroll_steps) % unroll_steps

/-- Epochs of each non-final direct sub-phase, as set in the main driver. -/
def epochs_u00_dxx (epochs direct_steps unroll_steps : Nat) : Nat :=
  epochs_u00 epochs unroll_steps / direct_steps

/-- Epochs of the final direct sub-phase: the even share plus the remainder. -/
def epochs_u00_dff (epochs direct_steps unroll_steps : Nat) : Nat :=
  epochs_u00_dxx epochs direct_steps unroll_steps +
    epochs_u00 epochs unroll_steps % direct_steps

/-- The curriculum schedule of the main driver: one entry per training
invocation, as the tuple of direct_steps, unroll_steps and epoch count.
The direct phase ramps direct_steps from 1 to its maximum with
unroll_steps 0, then the unroll phase ramps unroll_steps from 1 to its
maximum at the maximal direct_steps. -/
def curriculumSchedule (epochs direct_steps unroll_steps : Nat) :
    List (Nat × Nat × Nat) :=
  ((List.range direct_steps).map (fun i =>
    (i + 1, 0,
      if i + 1 = direct_steps then epochs_u00_dff epochs direct_steps unroll_steps
      else epochs_u00_dxx epochs direct_steps unroll_steps))) ++
  ((List.range unroll_steps).map (fun i =>
    (direct_steps, i + 1,
      if i + 1 = unroll_steps then epochs_uff epochs unroll_steps
      else epochs_uxx epochs unroll_steps)))

lemma sum_range_map_ite (a b : Nat) : ∀ (k m : Nat), k ≤ m →
    ((List.range k).map (fun i => if i + 1 = m + 1 then a else b)).sum = k * b
  | 0, _, _ => by simp
  | k + 1, m, h => by
    rw [List.range_succ, List.map_append, List.sum_append,
      sum_range_map_ite a b k m (by omega)]
    rw [List.map_cons, List.map_nil, List.sum_cons, List.sum_nil]
    rw [if_neg (by omega : ¬ (k + 1 = m + 1))]
    rw [Nat.succ_mul]
    omega

lemma sum_range_succ_map_ite (a b m : Nat) :
    ((List.range (m + 1)).map (fun i => if i + 1 = m + 1 then a else b)).sum =
      m * b + a := by
  rw [List.range_succ, List.map_append, List.sum_append,
    sum_range_map_ite a b m m (Nat.le_refl m)]
  simp

lemma epochs_u00_le (epochs unroll_steps : Nat) :
    epochs_u00 epochs unroll_steps ≤ epochs := by
  unfold epochs_u00
  calc 5 * epochs / (5 + unroll_steps) ≤ 5 * epochs / 5 :=
        Nat.div_le_div_left (by omega) (by omega)
    _ = epochs := Nat.mul_div_cancel_left epochs (by omega)

/-- C2: for every total epoch budget, every max direct_steps at least 1 and
every max unroll_steps, the epoch counts of the curriculum schedule sum
exactly to the total epoch budget. -/
theorem C2_schedule_epochs_sum (epochs direct_steps unroll_steps : Nat)
    (hd : 1 ≤ direct_steps) :
    ((curriculumSchedule epochs direct_steps unroll_steps).map
      (fun e => e.2.2)).sum = epochs := by
  obtain ⟨m, rfl⟩ : ∃ m, direct_steps = m + 1 := ⟨direct_steps - 1, by omega⟩
  unfold curriculumSchedule
  rw [List.map_append, List.sum_append, List.map_map, List.map_map]
  have hdir :
      ((List.range (m + 1)).map
        ((fun e : Nat × Nat × Nat => e.2.2) ∘ (fun i =>
          (i + 1, 0,
            if i + 1 = m + 1 then epochs_u00_dff epochs (m + 1) unroll_steps
            else epochs_u00_dxx epochs (m + 1) unroll_steps)))).sum =
      m * epochs_u00_dxx epochs (m + 1) unroll_steps +
        epochs_u00_dff epochs (m + 1) unroll_steps :=
    sum_range_succ_map_ite _ _ m
  rw [hdir]
  have hU := epochs_u00_le epochs unroll_steps
  have hdm := Nat.div_add_mod (epochs_u00 epochs unroll_steps) (m + 1)
  rw [Nat.succ_mul] at hdm
  cases unroll_steps with
  | zero =>
    have hU0 : epochs_u00 epochs 0 = epochs := by
      unfold epochs_u00
      omega
    simp only [List.range_zero, List.map_nil, List.sum_nil]
    rw [hU0] at hdm
    unfold epochs_u00_dff epochs_u00_dxx
    rw [hU0]
    omega
  | succ k =>
    have hun :
        ((List.range (k + 1)).map
          ((fun e : Nat × Nat × Nat => e.2.2) ∘ (fun i =>
            (m + 1, i + 1,
              if i + 1 = k + 1 then epochs_uff epochs (k + 1)
              else epochs_uxx epochs (k + 1))))).sum =
        k * epochs_uxx epochs (k + 1) + epochs_uff epochs (k + 1) :=
      sum_range_succ_map_ite _ _ k
    rw [hun]
    have hum := Nat.div_add_mod (epochs - epochs_u00 epochs (k + 1)) (k + 1)
    rw [Nat.succ_mul] at hum
    unfold epochs_u00_dff epochs_u00_dxx epochs_uff epochs_uxx
    omega

/-- C2 witness: the theorem applied at a concrete configuration. -/
theorem C2_schedule_epochs_sum_witness :
    1 ≤ 3 ∧ ((curriculumSchedule 20 3 2).map (fun e => e.2.2)).sum = 20 :=
  ⟨by decide, C2_schedule_epochs_sum 20 3 2 (by decide)⟩

/-- C4: for a trajectory of length 11 with jump_steps 1, direct_steps 2 and
unroll_steps 0, the lead times are exactly 0 to 7, and in general a lead
time is used if and only if it lies between the unroll offset, inclusive,
and num_times minus direct_steps, exclusive. -/
theorem C4_lead_times_range :
    lead_times 11 1 2 0 = [0, 1, 2, 3, 4, 5, 6, 7] ∧
    ∀ len_traj jump_steps direct_steps unroll_steps lt,
      lt ∈ lead_times len_traj jump_steps direct_steps unroll_steps ↔
        (unroll_offset unroll_steps direct_steps ≤ lt ∧
          lt < num_times len_traj jump_steps - direct_steps) := by
  constructor
  · decide
  · intro len_traj jump_steps direct_steps unroll_steps lt
    rw [lead_times, List.mem_range'_1]
    omega

/-! ## Normalization helpers from rigno/utils.py -/

namespace rigno

/-- Threefold elementwise zip used to embed the elementwise broadcasting of
the array operations in rigno/utils.py over flat lists of rationals. -/
def zipWith3 (f : ℚ → ℚ → ℚ → ℚ) : List ℚ → List ℚ → List ℚ → List ℚ
  | [], _, _ => []
  | _ :: _, [], _ => []
  | _ :: _, _ :: _, [] => []
  | a :: as, b :: bs, c :: cs => f a b c :: zipWith3 f as bs cs

/-- The function normalize of rigno/utils.py: scale entries equal to zero
are replaced by one, then the shifted array is divided by the scale. -/
def normalize (arr shift scale : List ℚ) : List ℚ :=
  zipWith3 (fun a sh sc => (a - sh) / (if sc = 0 then 1 else sc)) arr shift scale

/-- The function unnormalize of rigno/utils.py: std times the array plus
the mean, with no zero-scale guard. -/
def unnormalize (arr mean std : List ℚ) : List ℚ :=
  zipWith3 (fun a m s => s * a + m) arr mean std

lemma zipWith3_length (f : ℚ → ℚ → ℚ → ℚ) :
    ∀ (as bs cs : List ℚ),
      (zipWith3 f as bs cs).length = min as.length (min bs.length cs.length)
  | [], _, _ => by simp [zipWith3]
  | _ :: _, [], _ => by simp [zipWith3]
  | _ :: _, _ :: _, [] => by simp [zipWith3]
  | a :: as, b :: bs, c :: cs => by
    simp only [zipWith3, List.length_cons, zipWith3_length f as bs cs]
    omega

lemma norm_unnorm_aux (x : List ℚ) : ∀ (mean std : List ℚ),
    mean.length = x.length → std.length = x.length → (∀ s ∈ std, s ≠ 0) →
    normalize (unnormalize x mean std) mean std = x := by
  induction x with
  | nil =>
    intro mean std h1 h2 _
    simp only [List.length_nil, List.length_eq_zero] at h1 h2
    subst h1
    subst h2
    rfl
  | cons a as ih =>
    intro mean std h1 h2 h3
    cases mean with
    | nil => simp at h1
    | cons m ms =>
      cases std with
      | nil => simp at h2
      | cons s ss =>
        have hs : s ≠ 0 := h3 s (by simp)
        simp only [List.length_cons] at h1 h2
        have htail := ih ms ss (by omega) (by omega)
          (fun t ht => h3 t (by simp [ht]))
        simp only [unnormalize, normalize, zipWith3] at htail ⊢
        rw [if_neg hs]
        rw [show s * a + m - m = s * a by ring, mul_div_cancel_left₀ a hs, htail]

/-- C5: for every array x and every statistics pair with all std entries
nonzero, normalizing the unnormalization of x with the same statistics
returns x exactly, in exact rational arithmetic. -/
theorem C5_normalize_unnormalize_roundtrip (x mean std : List ℚ)
    (hm : mean.length = x.length) (hs : std.length = x.length)
    (h0 : ∀ s ∈ std, s ≠ 0) :
    normalize (unnormalize x mean std) mean std = x :=
  norm_unnorm_aux x mean std hm hs h0

/-- C5 witness: the theorem applied at concrete arrays and statistics. -/
theorem C5_normalize_unnormalize_roundtrip_witness :
    (∀ s ∈ ([2, 5] : List ℚ), s ≠ 0) ∧
    normalize (unnormalize [1, 2] [3, 4] [2, 5]) [3, 4] [2, 5] = [1, 2] :=
  ⟨by decide,
    C5_normalize_unnormalize_roundtrip [1, 2] [3, 4] [2, 5] rfl rfl (by decide)⟩

lemma normalize_getD_zero (arr : List ℚ) : ∀ (shift scale : List ℚ) (i : Nat),
    shift.length = arr.length → scale.length = arr.length → i < arr.length →
    scale.getD i 0 = 0 →
    (normalize arr shift scale).getD i 0 = arr.getD i 0 - shift.getD i 0 := by
  induction arr with
  | nil =>
    intro shift scale i _ _ hi _
    simp at hi
  | cons a as ih =>
    intro shift scale i h1 h2 hi h0
    cases shift with
    | nil => simp at h1
    | cons m ms =>
      cases scale with
      | nil => simp at h2
      | cons s ss =>
        simp only [List.length_cons] at h1 h2 hi
        cases i with
        | zero =>
          simp only [List.getD_cons_zero] at h0 ⊢
          simp only [normalize, zipWith3, List.getD_cons_zero]
          rw [if_pos h0, div_one]
        | succ j =>
          simp only [List.getD_cons_succ] at h0 ⊢
          simp only [normalize, zipWith3, List.getD_cons_succ]
          exact ih ms ss j (by omega) (by omega) (by omega) h0

/-- C6: when some scale entries are exactly zero, normalize substitutes one
for those entries: it stays total, preserves the array length, and at every
zero-scale position returns exactly the shifted value divided by one. -/
theorem C6_normalize_zero_scale_substitution (arr shift scale : List ℚ)
    (i : Nat) (hsh : shift.length = arr.length) (hsc : scale.length = arr.length)
    (hi : i < arr.length) (h0 : scale.getD i 0 = 0) :
    (normalize arr shift scale).length = arr.length ∧
    (normalize arr shift scale).getD i 0 = arr.getD i 0 - shift.getD i 0 := by
  constructor
  · rw [normalize, zipWith3_length, hsh, hsc]
    omega
  · exact normalize_getD_zero arr shift scale i hsh hsc hi h0

/-- C6 witness: the theorem applied at a concrete array with a zero scale. -/
theorem C6_normalize_zero_scale_substitution_witness :
    (0 : Nat) < 2 ∧ ([0, 2] : List ℚ).getD 0 0 = 0 ∧
    (normalize [1, 2] [3, 4] [0, 2]).length = 2 ∧
    (normalize [1, 2] [3, 4] [0, 2]).getD 0 0 =
      ([1, 2] : List ℚ).getD 0 0 - ([3, 4] : List ℚ).getD 0 0 :=
  ⟨by decide, by decide,
    C6_normalize_zero_scale_substitution [1, 2] [3, 4] [0, 2] 0 rfl rfl
      (by decide) (by decide)⟩

lemma unnorm_norm_zero_aux (x : List ℚ) : ∀ (mean std : List ℚ),
    mean.length = x.length → std.length = x.length → (∀ s ∈ std, s = 0) →
    unnormalize (normalize x mean std) mean std = mean := by
  induction x with
  | nil =>
    intro mean std h1 h2 _
    simp only [List.length_nil, List.length_eq_zero] at h1 h2
    subst h1
    subst h2
    rfl
  | cons a as ih =>
    intro mean std h1 h2 h3
    cases mean with
    | nil => simp at h1
    | cons m ms =>
      cases std with
      | nil => simp at h2
      | cons s ss =>
        have hs : s = 0 := h3 s (by simp)
        simp only [List.length_cons] at h1 h2
        have htail := ih ms ss (by omega) (by omega)
          (fun t ht => h3 t (by simp [ht]))
        simp only [normalize, unnormalize, zipWith3] at htail ⊢
        rw [htail, hs, zero_mul, zero_add]

/-- C10: with statistics whose std entries are all exactly zero, the round
trip unnormalize after normalize collapses every input to the mean, because
unnormalize applies no zero-scale guard. -/
theorem C10_unnormalize_normalize_collapses_to_mean (x mean std : List ℚ)
    (hm : mean.length = x.length) (hs : std.length = x.length)
    (h0 : ∀ s ∈ std, s = 0) :
    unnormalize (normalize x mean std) mean std = mean :=
  unnorm_norm_zero_aux x mean std hm hs h0

/-- C10 witness: the theorem applied at a concrete input with zero std. -/
theorem C10_unnormalize_normalize_collapses_to_mean_witness :
    (∀ s ∈ ([0, 0] : List ℚ), s = 0) ∧
    unnormalize (normalize [7, 8] [1, 2] [0, 0]) [1, 2] [0, 0] = [1, 2] :=
  ⟨by decide,
    C10_unnormalize_normalize_collapses_to_mean [7, 8] [1, 2] [0, 0] rfl rfl
      (by decide)⟩

end rigno

/-! ## Epoch loss accumulation in train_one_epoch -/

/-- The contribution of one batch to the epoch loss in train_one_epoch:
the batch loss times batch_size over the number of training samples. -/
def batchContribution (loss : ℚ) (batch_size num_samples_trn : Nat) : ℚ :=
  loss * batch_size / num_samples_trn

/-- The epoch loss accumulated over the batch losses by the running sum of
train_one_epoch, starting from zero. -/
def epochLoss (losses : List ℚ) (batch_size num_samples_trn : Nat) : ℚ :=
  losses.foldl (fun acc l => acc + batchContribution l batch_size num_samples_trn) 0

lemma foldl_add_eq_sum (f : ℚ → ℚ) :
    ∀ (l : List ℚ) (c : ℚ), l.foldl (fun a x => a + f x) c = c + (l.map f).sum := by
  intro l
  induction l with
  | nil => intro c; simp
  | cons x xs ih =>
    intro c
    simp only [List.foldl_cons, List.map_cons, List.sum_cons, ih]
    ring

/-- C7: each batch contributes its loss weighted by batch_size over the
number of training samples, and processing the same batch losses in any
two orderings yields exactly the same accumulated epoch loss. -/
theorem C7_epoch_loss_order_independent (batch_size num_samples_trn : Nat)
    (l₁ l₂ : List ℚ) (hp : l₁.Perm l₂) :
    epochLoss l₁ batch_size num_samples_trn =
      (l₁.map (fun loss => batchContribution loss batch_size num_samples_trn)).sum ∧
    epochLoss l₁ batch_size num_samples_trn =
      epochLoss l₂ batch_size num_samples_trn := by
  have h1 : ∀ l : List ℚ, epochLoss l batch_size num_samples_trn =
      (l.map (fun loss => batchContribution loss batch_size num_samples_trn)).sum := by
    intro l
    rw [epochLoss, foldl_add_eq_sum, zero_add]
  refine ⟨h1 l₁, ?_⟩
  rw [h1 l₁, h1 l₂]
  exact (hp.map _).sum_eq

/-- C7 witness: the theorem applied at a concrete pair of orderings. -/
theorem C7_epoch_loss_order_independent_witness :
    ([1, 2] : List ℚ).Perm [2, 1] ∧ epochLoss [1, 2] 2 4 = epochLoss [2, 1] 2 4 :=
  ⟨List.Perm.swap 2 1 [],
    (C7_epoch_loss_order_independent 2 4 [1, 2] [2, 1] (List.Perm.swap 2 1 [])).2⟩

/-! ## Batch divisibility guard of train -/

/-- Configuration errors that abort the run. -/
inductive ConfigError where
  | batchSizeNotDividing : ConfigError
deriving DecidableEq

/-- The sizes of the batches yielded by the batches method of the Dataset
class in mpgno/dataset.py: full batches of batch_size for the dividable
part, then one remainder batch when batch_size does not divide. -/
def batchSizes (num_samples batch_size : Nat) : List Nat :=
  List.replicate (num_samples / batch_size) batch_size ++
    (if num_samples % batch_size = 0 then [] else [num_samples % batch_size])

/-- The entry to the training loop in train.py: the guard asserting that
batch_size divides the number of training samples runs before any batch is
consumed, so training either aborts or sees the batch sizes. -/
def trainBatches (num_samples_trn batch_size : Nat) :
    Except ConfigError (List Nat) :=
  if num_samples_trn % batch_size = 0 then
    Except.ok (batchSizes num_samples_trn batch_size)
  else Except.error ConfigError.batchSizeNotDividing

/-- C8: when the batch size does not evenly divide the training sample
count, the run aborts with a configuration error before any batch is
processed, and whenever the run proceeds every trained batch has exactly
the configured batch size. -/
theorem C8_abort_on_indivisible_batch (num_samples batch_size : Nat) :
    (num_samples % batch_size ≠ 0 →
      trainBatches num_samples batch_size =
        Except.error ConfigError.batchSizeNotDividing) ∧
    (∀ sizes, trainBatches num_samples batch_size = Except.ok sizes →
      ∀ b ∈ sizes, b = batch_size) := by
  constructor
  · intro h
    rw [trainBatches, if_neg h]
  · intro sizes hok b hb
    rw [trainBatches] at hok
    by_cases h : num_samples % batch_size = 0
    · rw [if_pos h] at hok
      cases hok
      rw [batchSizes, if_pos h, List.append_nil] at hb
      exact List.eq_of_mem_replicate hb
    · rw [if_neg h] at hok
      cases hok

/-- C8 witness: the theorem applied at a non-dividing configuration and at
a dividing one. -/
theorem C8_abort_on_indivisible_batch_witness :
    (5 % 2 ≠ 0 ∧ trainBatches 5 2 = Except.error ConfigError.batchSizeNotDividing) ∧
    (trainBatches 6 2 = Except.ok [2, 2, 2] ∧ ∀ b ∈ [2, 2, 2], b = 2) :=
  ⟨⟨by decide, (C8_abort_on_indivisible_batch 5 2).1 (by decide)⟩,
    ⟨rfl, fun b hb => (C8_abort_on_indivisible_batch 6 2).2 [2, 2, 2] rfl b hb⟩⟩

/-! ## Statistics guard of Dataset.compute_stats in mpgno/dataset.py -/

/-- The conjunction of the assert statements at the top of compute_stats:
residual_steps is nonnegative, residual_steps is below the trajectory
length, and the time axis 1 is a member of axes. The method proceeds past
its asserts exactly when this is true. -/
def computeStatsProceeds (axes : List Int) (residual_steps : Int)
    (len_traj : Nat) : Bool :=
  decide (0 ≤ residual_steps) && decide (residual_steps < (len_traj : Int)) &&
    decide ((1 : Int) ∈ axes)

/-- C9: with the default argument axes equal to the singleton 0, the guard
of compute_stats always fails, so the call always raises an AssertionError;
in general compute_stats proceeds exactly when 1 is in axes and
residual_steps lies in the trajectory index range. -/
theorem C9_compute_stats_default_always_raises (residual_steps : Int)
    (len_traj : Nat) :
    computeStatsProceeds [0] residual_steps len_traj = false ∧
    ∀ axes, (computeStatsProceeds axes residual_steps len_traj = true ↔
      ((1 : Int) ∈ axes ∧ 0 ≤ residual_steps ∧
        residual_steps < (len_traj : Int))) := by
  constructor
  · rw [computeStatsProceeds]
    have h1 : decide ((1 : Int) ∈ ([0] : List Int)) = false := by decide
    rw [h1, Bool.and_false]
  · intro axes
    rw [computeStatsProceeds]
    simp only [Bool.and_eq_true, decide_eq_true_eq]
    tauto
